import Mathlib

/-!
Shallow embedding of `src/index.js` (webpack-module-rules-utils): a utility
library over an ordered forest of webpack `Rule` nodes.  JavaScript objects
are modelled as Lean inductive values; in-place mutation is modelled by
state passing (every mutating operation returns the updated forest next to
its JS return value); JS reference identity (`===`, `includes`, `indexOf`)
is modelled as structural equality, matching the library's documented data
model in which a Rule or UseEntry object appears in at most one place of
the tree (no aliasing).  Values irrelevant to the library's control flow
(option objects, functions) are modelled as opaque tagged constructors;
the library only moves them around and tests their truthiness.
-/

/-- Model of a generic JavaScript value as stored in `options`, `query` and
`loader` positions of a use entry.  `fn` and `obj` are opaque function and
object values distinguished by a tag; the library never looks inside them. -/
inductive JsVal where
  | str (s : String)
  | num (n : Int)
  | fn (tag : Nat)
  | obj (tag : Nat)
deriving DecidableEq, Repr

/-- JS truthiness of a `JsVal`: empty string and zero are falsy, functions
and objects are truthy. -/
def JsVal.truthy : JsVal → Bool
  | .str s => !(s == "")
  | .num n => !(n == 0)
  | .fn _ => true
  | .obj _ => true

/-- Truthiness of an optional field: an absent (undefined) field is falsy. -/
def optTruthy : Option JsVal → Bool
  | none => false
  | some v => v.truthy

/-- Canonical UseEntry object: loader with optional options and query.
A field holding JS `undefined` is conflated with an absent field (`none`);
the library never distinguishes the two. -/
structure UseEntry where
  loader  : Option JsVal
  options : Option JsVal
  query   : Option JsVal
deriving DecidableEq, Repr

/-- One element of a `use` array before full normalization: a bare string
("loader?query"), a canonical UseEntry object, or a bare function. -/
inductive UseItem where
  | str (s : String)
  | obj (e : UseEntry)
  | fn (tag : Nat)
deriving DecidableEq, Repr

/-- Value of the legacy `loader` / `loaders` fields: a single item
(string, object or function) or an array of items. -/
inductive LoaderVal where
  | item (it : UseItem)
  | arr (items : List UseItem)
deriving DecidableEq, Repr

/-- JS truthiness of a loader field value (arrays are always truthy,
the empty string is falsy). -/
def LoaderVal.truthy : LoaderVal → Bool
  | .item (.str s) => !(s == "")
  | .item _ => true
  | .arr _ => true

/-- Truthiness of the optional `loader` / `loaders` field. -/
def loaderFieldTruthy : Option LoaderVal → Bool
  | none => false
  | some v => v.truthy

/-- JS `a || b` on loader fields: yields `b` whenever `a` is falsy. -/
def jsOrLoader (a b : Option LoaderVal) : Option LoaderVal :=
  if loaderFieldTruthy a then a else b

/-- Value of the `use` field: a single non-array item or an array of items. -/
inductive UseVal where
  | single (it : UseItem)
  | list (items : List UseItem)
deriving DecidableEq, Repr

/-- JS truthiness of the optional `use` field: absent or a bare empty
string is falsy, everything else (including an empty array) is truthy. -/
def useTruthy : Option UseVal → Bool
  | none => false
  | some (.single (.str s)) => !(s == "")
  | some _ => true

/-- The scalar (non-children) fields of a Rule; visitors of the deep
traversal read and rewrite exactly these fields in place. -/
structure RuleData where
  loader  : Option LoaderVal
  loaders : Option LoaderVal
  query   : Option JsVal
  options : Option JsVal
  use     : Option UseVal
deriving DecidableEq, Repr

mutual
/-- A webpack Rule node: the legacy loader fields, the `use` field and the
two child forests `rules` and `oneOf`.  An absent child forest is conflated
with an empty one: the library treats a missing or non-array `rules` field
exactly like an empty array everywhere (traversal, membership, insertion). -/
inductive Rule where
  | mk (loader loaders : Option LoaderVal) (query options : Option JsVal)
      (use : Option UseVal) (rules oneOf : RuleList)
deriving DecidableEq, Repr

/-- An ordered sequence of Rule nodes (an own list type, so that structural
recursion over the nested tree is available). -/
inductive RuleList where
  | nil
  | cons (r : Rule) (rs : RuleList)
deriving DecidableEq, Repr
end

def Rule.loaderF : Rule → Option LoaderVal
  | .mk l _ _ _ _ _ _ => l

def Rule.loadersF : Rule → Option LoaderVal
  | .mk _ ls _ _ _ _ _ => ls

def Rule.queryF : Rule → Option JsVal
  | .mk _ _ q _ _ _ _ => q

def Rule.optionsF : Rule → Option JsVal
  | .mk _ _ _ o _ _ _ => o

def Rule.useF : Rule → Option UseVal
  | .mk _ _ _ _ u _ _ => u

def Rule.rulesL : Rule → RuleList
  | .mk _ _ _ _ _ rs _ => rs

def Rule.oneOfL : Rule → RuleList
  | .mk _ _ _ _ _ _ os => os

/-- The scalar fields of a rule, bundled. -/
def Rule.data : Rule → RuleData
  | .mk l ls q o u _ _ => ⟨l, ls, q, o, u⟩

/-- Replace the scalar fields of a rule, keeping its children: models the
in-place mutation of a rule object by a traversal callback. -/
def Rule.withData : Rule → RuleData → Rule
  | .mk _ _ _ _ _ rs os, d => .mk d.loader d.loaders d.query d.options d.use rs os

/-- Replace the `rules` child forest of a rule. -/
def Rule.setRules : Rule → RuleList → Rule
  | .mk l ls q o u _ os, rs => .mk l ls q o u rs os

/-- Replace the `oneOf` child forest of a rule. -/
def Rule.setOneOf : Rule → RuleList → Rule
  | .mk l ls q o u rs _, os => .mk l ls q o u rs os

/-- Replace the `use` field of a rule. -/
def Rule.setUse : Rule → Option UseVal → Rule
  | .mk l ls q o _ rs os, u => .mk l ls q o u rs os

/-- Membership of a rule in a rule sequence (models `array.includes`,
reference identity read as structural equality). -/
def RuleList.memb (rs : RuleList) (x : Rule) : Bool :=
  match rs with
  | .nil => false
  | .cons r rest => r == x || rest.memb x

def RuleList.length : RuleList → Nat
  | .nil => 0
  | .cons _ rest => 1 + rest.length

/-- Index of the first occurrence of a rule (models `array.indexOf`). -/
def RuleList.idxOf : RuleList → Rule → Option Nat
  | .nil, _ => none
  | .cons r rest, x =>
    if r == x then some 0
    else match rest.idxOf x with
         | none => none
         | some i => some (i + 1)

/-- Insert a rule at a given position (models `array.splice(i, 0, x)`). -/
def RuleList.insertAt : RuleList → Nat → Rule → RuleList
  | rs, 0, x => .cons x rs
  | .nil, _ + 1, x => .cons x .nil
  | .cons r rest, i + 1, x => .cons r (rest.insertAt i x)

def RuleList.take : RuleList → Nat → RuleList
  | _, 0 => .nil
  | .nil, _ + 1 => .nil
  | .cons r rest, i + 1 => .cons r (rest.take i)

def RuleList.drop : RuleList → Nat → RuleList
  | rs, 0 => rs
  | .nil, _ + 1 => .nil
  | .cons _ rest, i + 1 => rest.drop i

def RuleList.append : RuleList → RuleList → RuleList
  | .nil, ys => ys
  | .cons r rest, ys => .cons r (rest.append ys)

/-! ### String-entry parsing and rule normalization (src/index.js lines 53-123) -/

/-- Split a character list at the first occurrence of `c` (models
`String.prototype.indexOf` plus the two `substr` calls around it):
`none` when `c` does not occur. -/
def splitAtFirstChar (c : Char) : List Char → Option (List Char × List Char)
  | [] => none
  | x :: xs =>
    if x = c then some ([], xs)
    else match splitAtFirstChar c xs with
         | none => none
         | some (a, b) => some (x :: a, b)

/-- Model of `String.prototype.split` with a one-character separator:
`jsSplitChar sep ""` is `[""]`, exactly as in JS. -/
def jsSplitChar (sep : Char) : List Char → List (List Char)
  | [] => [[]]
  | c :: cs =>
    let r := jsSplitChar sep cs
    if c = sep then [] :: r
    else match r with
         | [] => [[c]]
         | h :: t => (c :: h) :: t

/-- Model of `normalizeUseItemString` (the JS name carries a leading
underscore): split a use-entry string on the first `?`; the part before it
becomes `loader`, the part after it (when present) becomes `options`. -/
def normalizeUseItemString (s : String) : UseEntry :=
  match splitAtFirstChar '?' s.data with
  | some (a, b) => ⟨some (.str (String.mk a)), some (.str (String.mk b)), none⟩
  | none => ⟨some (.str s), none, none⟩

/-- Model of `deleteLoaderKeys` (leading underscore in JS): removes the
`loader` and `loaders` fields, and with `withOptions` also `query` and
`options`. -/
def deleteLoaderKeys (d : RuleData) (withOptions : Bool) : RuleData :=
  if withOptions then ⟨none, none, none, none, d.use⟩
  else ⟨none, none, d.query, d.options, d.use⟩

/-- Whether the resolved loader field holds a string (JS `typeof loader === "string"`). -/
def loaderIsString : Option LoaderVal → Bool
  | some (.item (.str _)) => true
  | _ => false

/-- The string held by a string-valued loader field (only used under a
`loaderIsString` guard, mirroring how the JS code reads `loader` there). -/
def loaderStringOf : Option LoaderVal → String
  | some (.item (.str s)) => s
  | _ => ""

/-- Conversion of a loader field value assigned directly to `use`
(JS `rule.use = loader`): a bare item stays a single value, an array stays
an array. -/
def LoaderVal.toUseVal : LoaderVal → UseVal
  | .item it => .single it
  | .arr l => .list l

/-- `"a!b!c"` split on `!` into use items, as in the first legacy branch. -/
def splitBang (s : String) : List UseItem :=
  (jsSplitChar '!' s.data).map (fun l => UseItem.str (String.mk l))

/-- Phase-3 mapping of one `use` array element: strings are parsed into
canonical UseEntry objects, objects and functions pass through. -/
def normUseItem : UseItem → UseItem
  | .str s => .obj (normalizeUseItemString s)
  | .obj e => .obj e
  | .fn t => .fn t

/-- First statement block of `normalizeUseEntriesWithinRule`: when `use`
is falsy, fold the legacy `loader`/`loaders` fields into `use` following
the three branches of the source (string without options/query; string
with exactly one of them; any truthy loader without options/query), and
leave any other combination untouched. -/
def legacyPhase (d : RuleData) : RuleData :=
  if !(useTruthy d.use) then
    let loader := jsOrLoader d.loaders d.loader
    let loaderIsStr := loaderIsString loader
    if loaderIsStr && !(optTruthy d.options) && !(optTruthy d.query) then
      deleteLoaderKeys ⟨d.loader, d.loaders, d.query, d.options,
        some (.list (splitBang (loaderStringOf loader)))⟩ false
    else if loaderIsStr && ((!(optTruthy d.options)) != (!(optTruthy d.query))) then
      deleteLoaderKeys ⟨d.loader, d.loaders, d.query, d.options,
        some (.single (.obj ⟨some (.str (loaderStringOf loader)), d.options, d.query⟩))⟩ true
    else if loaderFieldTruthy loader && !(optTruthy d.options || optTruthy d.query) then
      match loader with
      | some lv => deleteLoaderKeys ⟨d.loader, d.loaders, d.query, d.options,
          some lv.toUseVal⟩ false
      | none => d
    else d
  else d

/-- Second statement block: wrap a truthy non-array `use` into a
one-element array. -/
def wrapPhase (d : RuleData) : RuleData :=
  if useTruthy d.use then
    match d.use with
    | some (.single it) => ⟨d.loader, d.loaders, d.query, d.options, some (.list [it])⟩
    | _ => d
  else d

/-- Third statement block: parse every string element of a `use` array. -/
def mapPhase (d : RuleData) : RuleData :=
  match d.use with
  | some (.list items) =>
    ⟨d.loader, d.loaders, d.query, d.options, some (.list (items.map normUseItem))⟩
  | _ => d

/-- Model of `normalizeUseEntriesWithinRule` (leading underscore in JS) on
the scalar fields of a rule: the three statement blocks of the source in
sequence. -/
def normalizeRuleData (d : RuleData) : RuleData :=
  mapPhase (wrapPhase (legacyPhase d))

/-- The JS function takes the rule object and mutates its scalar fields. -/
def normalizeUseEntriesWithinRule (r : Rule) : RuleData :=
  normalizeRuleData r.data

/-- A rule after its scalar fields were normalized in place. -/
def normRule (r : Rule) : Rule :=
  r.withData (normalizeUseEntriesWithinRule r)

/-! ### Deep traversal (src/index.js lines 36-50)

`iterateRulesDeep` (leading underscore in JS) walks the forest with a
shared mutable carry object.  A visitor models the JS callback: it may
rewrite the scalar fields of the visited rule (the callbacks of this
library mutate only those), update an external state, and return the stop
signal (the JS callback returning `false`).  The carry flag is threaded
exactly as in the source: it is tested before each visit, and reset to
`false` (note: not set to `true`) whenever the loop breaks. -/

def iterDeep {σ : Type} (visit : σ → Rule → RuleData × σ × Bool) :
    RuleList → σ → Bool → RuleList × σ × Bool
  | .nil, s, c => (.nil, s, c)
  | .cons (.mk l ls q o u rs os) rest, s, c =>
    if c then (.cons (.mk l ls q o u rs os) rest, s, false)
    else
      let v := visit s (.mk l ls q o u rs os)
      let d := v.1
      if v.2.2 then
        (.cons (.mk d.loader d.loaders d.query d.options d.use rs os) rest, v.2.1, false)
      else
        let t1 := iterDeep visit rs v.2.1 false
        let t2 := iterDeep visit os t1.2.1 t1.2.2
        let t3 := iterDeep visit rest t2.2.1 t2.2.2
        (.cons (.mk d.loader d.loaders d.query d.options d.use t1.1 t2.1) t3.1, t3.2.1, t3.2.2)

/-! ### Matcher normalization (src/index.js lines 132-152)

The string matcher builds `new RegExp("\\b" + escaped + "\\b", "i")` where
`escaped` is the literal matcher string with every regex metacharacter
escaped; the resulting pattern is therefore a case-insensitive literal
search framed by word-boundary assertions.  The model implements exactly
that: an occurrence of the literal (compared char-wise through `toLower`)
whose two end positions are regex word boundaries.  `path.sep` is the
POSIX `/` here (the source has an extra rewrite of the pattern only when
the platform separator is a backslash). -/

/-- Regex word character, JS `\w`: ASCII letters, digits, underscore. -/
def isWordChar (c : Char) : Bool :=
  c.isAlphanum || c = '_'

/-- Whether position `i` of the character list holds a word character
(out-of-range counts as non-word, as at the edges of a JS string). -/
def charIsWordAt : List Char → Nat → Bool
  | [], _ => false
  | c :: _, 0 => isWordChar c
  | _ :: cs, i + 1 => charIsWordAt cs i

/-- Regex `\b` holds at position `p`: exactly one of the characters around
the position is a word character. -/
def boundaryAt (s : List Char) (p : Nat) : Bool :=
  (if p = 0 then false else charIsWordAt s (p - 1)) != charIsWordAt s p

/-- Case-insensitive literal prefix test (the `i` flag of the pattern). -/
def ciPrefix : List Char → List Char → Bool
  | [], _ => true
  | _ :: _, [] => false
  | a :: as, b :: bs => (a.toLower == b.toLower) && ciPrefix as bs

/-- Case-sensitive literal prefix test (used for `lastIndexOf`). -/
def exactPrefix : List Char → List Char → Bool
  | [], _ => true
  | _ :: _, [] => false
  | a :: as, b :: bs => (a == b) && exactPrefix as bs

/-- Search for the literal `pat` framed by word boundaries anywhere in `s`,
case-insensitively: the test of the constructed `RegExp`. -/
def wbSearch (pat s : List Char) : Bool :=
  (List.range (s.length + 1)).any
    (fun p => boundaryAt s p && ciPrefix pat (s.drop p) && boundaryAt s (p + pat.length))

/-- Model of `String.prototype.lastIndexOf` for a substring. -/
def lastOccurrence (pat s : List Char) : Option Nat :=
  ((List.range (s.length + 1)).filter (fun p => exactPrefix pat (s.drop p))).getLast?

/-- The function produced for a string matcher: test the word-bounded
literal against the part of the loader path after the last
`/node_modules/` marker (the whole path when the marker is absent). -/
def stringMatcherTest (pat loaderStr : String) : Bool :=
  let l := loaderStr.data
  let marker := "/node_modules/".data
  let start := match lastOccurrence marker l with
               | none => 0
               | some k => k + marker.length
  wbSearch pat.data (l.drop start)

/-- A matcher argument: a predicate function, a RegExp (modelled by its
match-anywhere test on the loader string), a literal string, or a value of
any other type (the invalid case). -/
inductive Matcher where
  | fn (p : UseItem → Bool)
  | regex (test : String → Bool)
  | str (s : String)
  | other (tag : Nat)

/-- A matcher argument of one of the three accepted types. -/
def Matcher.isValid : Matcher → Bool
  | .other _ => false
  | _ => true

/-- The loader value a matcher body reads from a use-array element.  The
JS string and RegExp matchers call string methods on `entry.loader`
(`lastIndexOf`, `search`); when the element is a bare function, or an
object whose `loader` is absent or not a string, that call raises a
TypeError at match time, modelled as the error case. -/
def itemLoaderString : UseItem → Except Unit String
  | .obj e => match e.loader with
              | some (.str s) => .ok s
              | _ => .error ()
  | _ => .error ()

/-- Model of `normalizeLoaderMatcher` (leading underscore in JS): a
function passes through, a RegExp and a string become loader-string tests
that may raise a TypeError on an entry whose loader is not a string, and
any other argument is a TypeError thrown immediately, before any
traversal.  A produced matcher returns `Except`: the error is the
match-time TypeError. -/
def normalizeLoaderMatcher : Matcher → Except Unit (UseItem → Except Unit Bool)
  | .fn p => .ok (fun it => .ok (p it))
  | .regex t => .ok (fun it => (itemLoaderString it).map t)
  | .str s => .ok (fun it => (itemLoaderString it).map (stringMatcherTest s))
  | .other _ => .error ()

/-! ### Search API (src/index.js lines 163-226) -/

/-- The inner loop of the search callback over the `use` array of one
(already normalized) rule, in the error-free case (a matcher that throws
on no visited entry): apply the matcher to each element in order, collect
the matches paired with the owning rule; with the stop flag the loop ends
at the first match and signals the traversal stop.  `scanUseE` below is
the general, TypeError-aware loop actually run by the search pipeline; it
coincides with this one whenever no entry faults. -/
def scanUse (mt : UseItem → Bool) (stopF : Bool) (rn : Rule) :
    List UseItem → List (Rule × UseItem) × Bool
  | [] => ([], false)
  | it :: rest =>
    if mt it then
      if stopF then ([(rn, it)], true)
      else
        let more := scanUse mt stopF rn rest
        ((rn, it) :: more.1, more.2)
    else scanUse mt stopF rn rest

/-- The general inner loop of the search callback: the matcher evaluation
may raise a TypeError, which aborts the scan (entries already collected
are discarded with the whole call). -/
def scanUseE (mt : UseItem → Except Unit Bool) (stopF : Bool) (rn : Rule) :
    List UseItem → Except Unit (List (Rule × UseItem) × Bool)
  | [] => .ok ([], false)
  | it :: rest =>
    match mt it with
    | .error e => .error e
    | .ok true =>
      if stopF then .ok ([(rn, it)], true)
      else
        match scanUseE mt stopF rn rest with
        | .error e => .error e
        | .ok (more, st) => .ok ((rn, it) :: more, st)
    | .ok false => scanUseE mt stopF rn rest

/-- The error-free form of the callback `findByLoader` passes to the deep
traversal: normalize the visited rule in place, then scan its `use` array
(skipping the rule if `use` is not an array). -/
def findVisitor (mt : UseItem → Bool) (stopF : Bool)
    (s : List (Rule × UseItem)) (r : Rule) : RuleData × List (Rule × UseItem) × Bool :=
  let d := normalizeUseEntriesWithinRule r
  let rn := r.withData d
  match d.use with
  | some (.list items) =>
    let sc := scanUse mt stopF rn items
    (d, s ++ sc.1, sc.2)
  | _ => (d, s, false)

/-- The callback `findByLoader` passes to the deep traversal, in its
general TypeError-aware form: the rule's normalization is committed in
place before the scan can fault. -/
def findVisitorE (mt : UseItem → Except Unit Bool) (stopF : Bool)
    (s : List (Rule × UseItem)) (r : Rule) :
    RuleData × Except Unit (List (Rule × UseItem) × Bool) :=
  let d := normalizeUseEntriesWithinRule r
  let rn := r.withData d
  match d.use with
  | some (.list items) =>
    (d, match scanUseE mt stopF rn items with
        | .error e => .error e
        | .ok (found, st) => .ok (s ++ found, st))
  | _ => (d, .ok (s, false))

/-- The deep traversal run with a callback that may throw: a JS exception
raised inside the callback aborts the whole traversal at once, unwinding
through every recursion level (unlike the stop signal, which the broken
carry flag confines to one level), and leaves the in-place mutations
performed so far in place: the visited rules keep their rewritten scalar
fields, unvisited rules and subtrees are untouched.  The carry flag is
threaded exactly as in `iterDeep`. -/
def iterDeepE {σ : Type} (visit : σ → Rule → RuleData × Except Unit (σ × Bool)) :
    RuleList → σ → Bool → RuleList × Except Unit (σ × Bool)
  | .nil, s, c => (.nil, .ok (s, c))
  | .cons (.mk l ls q o u rs os) rest, s, c =>
    if c then (.cons (.mk l ls q o u rs os) rest, .ok (s, false))
    else
      match visit s (.mk l ls q o u rs os) with
      | (d, .error e) =>
        (.cons (.mk d.loader d.loaders d.query d.options d.use rs os) rest, .error e)
      | (d, .ok (s1, stop)) =>
        if stop then
          (.cons (.mk d.loader d.loaders d.query d.options d.use rs os) rest, .ok (s1, false))
        else
          match iterDeepE visit rs s1 false with
          | (rs1, .error e) =>
            (.cons (.mk d.loader d.loaders d.query d.options d.use rs1 os) rest, .error e)
          | (rs1, .ok (s2, c2)) =>
            match iterDeepE visit os s2 c2 with
            | (os2, .error e) =>
              (.cons (.mk d.loader d.loaders d.query d.options d.use rs1 os2) rest, .error e)
            | (os2, .ok (s3, c3)) =>
              match iterDeepE visit rest s3 c3 with
              | (rest3, r3) =>
                (.cons (.mk d.loader d.loaders d.query d.options d.use rs1 os2) rest3, r3)

/-- Model of `findByLoader` (leading underscore in JS).  The first
component is the JS return value: a TypeError thrown by matcher
normalization (before any traversal) or by a matcher evaluation during
the traversal, or the collected matches.  The second component is the
forest as left behind by the call: unchanged on an invalid matcher,
normalized up to the abort point on a match-time TypeError. -/
def findByLoader (rules : RuleList) (m : Matcher) (stopAfterFirstFound : Bool) :
    Except Unit (List (Rule × UseItem)) × RuleList :=
  match normalizeLoaderMatcher m with
  | .error e => (.error e, rules)
  | .ok mt =>
    match iterDeepE (findVisitorE mt stopAfterFirstFound) rules [] false with
    | (tree, .error e) => (.error e, tree)
    | (tree, .ok (results, _)) => (.ok results, tree)

/-- First matching use entry, or null (`none`). -/
def getLoader (rules : RuleList) (m : Matcher) : Except Unit (Option UseItem) × RuleList :=
  match findByLoader rules m true with
  | (.error e, t) => (.error e, t)
  | (.ok findings, t) => (.ok (findings.head?.map Prod.snd), t)

/-- Rule owning the first matching use entry, or null. -/
def getRuleByLoader (rules : RuleList) (m : Matcher) : Except Unit (Option Rule) × RuleList :=
  match findByLoader rules m true with
  | (.error e, t) => (.error e, t)
  | (.ok findings, t) => (.ok (findings.head?.map Prod.fst), t)

/-- Every matching use entry in traversal order. -/
def getAllLoaders (rules : RuleList) (m : Matcher) : Except Unit (List UseItem) × RuleList :=
  match findByLoader rules m false with
  | (.error e, t) => (.error e, t)
  | (.ok findings, t) => (.ok (findings.map Prod.snd), t)

/-- Every rule owning a matching use entry, in traversal order. -/
def getAllRulesByLoader (rules : RuleList) (m : Matcher) : Except Unit (List Rule) × RuleList :=
  match findByLoader rules m false with
  | (.error e, t) => (.error e, t)
  | (.ok findings, t) => (.ok (findings.map Prod.fst), t)

/-! ### Parent lookup (src/index.js lines 233-250) -/

/-- A `getParentRule` target: a Rule or a use-array element.  The JS
argument is a single dynamic value; the typed split encodes that a Rule
object is never also a use-array element (the library's no-sharing data
model). -/
inductive RuleOrEntry where
  | rule (r : Rule)
  | entry (it : UseItem)

/-- The containment test of the parent-lookup callback, applied to the
rule after its in-place normalization: target in `rules`, in `oneOf`, or
in the `use` array. -/
def parentFound (t : RuleOrEntry) (rn : Rule) : Bool :=
  let inRules := match t with
                 | .rule tr => rn.rulesL.memb tr
                 | .entry _ => false
  let inOneOf := match t with
                 | .rule tr => rn.oneOfL.memb tr
                 | .entry _ => false
  let inUse := match t, rn.useF with
               | .entry te, some (.list l) => l.contains te
               | _, _ => false
  inRules || inOneOf || inUse

/-- The parent-lookup callback: normalize the visited rule, record it as
the result and signal the stop when it contains the target. -/
def parentVisitor (t : RuleOrEntry) (s : Option Rule) (r : Rule) :
    RuleData × Option Rule × Bool :=
  let d := normalizeUseEntriesWithinRule r
  let rn := r.withData d
  if parentFound t rn then (d, some rn, true) else (d, s, false)

/-- Model of `getParentRule`: the found parent (null both when the target
sits at forest root and when it is absent) and the forest after the
traversal's in-place normalization. -/
def getParentRule (rules : RuleList) (t : RuleOrEntry) : Option Rule × RuleList :=
  let out := iterDeep (parentVisitor t) rules none false
  (out.2.1, out.1)

/-! ### Insertion (src/index.js lines 261-331)

The JS splice helper `insertAtPositionOf` is generic over the array; the
model instantiates it once for rule sequences and once for use arrays.
A JS reference into the tree (the parent rule returned by the lookup) is
modelled by replacing the first structurally equal node; under the
library's no-sharing data model that node is unique. -/

/-- Splice helper on rule sequences: locate the target by identity, insert
the new element at the target's index plus the offset; an absent or
non-array sequence (modelled by the index search failing on `nil`) yields
`false`. -/
def insertAtPositionOfRules (array : RuleList) (targetItem itemToInsert : Rule)
    (addToIndex : Nat) : Bool × RuleList :=
  match array.idxOf targetItem with
  | none => (false, array)
  | some i => (true, array.insertAt (i + addToIndex) itemToInsert)

/-- Index of the first occurrence in a list (models `array.indexOf`). -/
def listIdxOf [DecidableEq α] : List α → α → Option Nat
  | [], _ => none
  | a :: rest, x => if a = x then some 0 else (listIdxOf rest x).map (· + 1)

/-- Insert at a position in a list (models `array.splice(i, 0, x)`). -/
def listInsertAt (l : List α) (i : Nat) (x : α) : List α :=
  l.take i ++ x :: l.drop i

/-- Splice helper on a `use` field: fails on anything that is not an
array, as `insertAtPositionOf` does on a non-array argument. -/
def insertAtPositionOfUse (array : Option UseVal) (targetItem itemToInsert : UseItem)
    (addToIndex : Nat) : Bool × Option UseVal :=
  match array with
  | some (.list l) =>
    (match listIdxOf l targetItem with
     | none => (false, some (.list l))
     | some i => (true, some (.list (listInsertAt l (i + addToIndex) itemToInsert))))
  | other => (false, other)

/-- Write-back of a mutation of the parent rule: replace the first node
structurally equal to `p` with `pNew` (pre-order), reporting whether a
replacement happened. -/
def replaceRule (p pNew : Rule) : RuleList → RuleList × Bool
  | .nil => (.nil, false)
  | .cons (.mk l ls q o u rs os) rest =>
    if (Rule.mk l ls q o u rs os) = p then (.cons pNew rest, true)
    else
      let a := replaceRule p pNew rs
      if a.2 then (.cons (.mk l ls q o u a.1 os) rest, true)
      else
        let b := replaceRule p pNew os
        if b.2 then (.cons (.mk l ls q o u rs b.1) rest, true)
        else
          let c := replaceRule p pNew rest
          (.cons (.mk l ls q o u rs os) c.1, c.2)

/-- Common body of `insertBeforeRule` (offset 0) and `insertAfterRule`
(offset 1): try the root forest, else look up the parent and try its
`rules` then its `oneOf` sequence. -/
def insertRuleAtOffset (rules : RuleList) (target newRule : Rule) (off : Nat) :
    Bool × RuleList :=
  if rules.memb target then
    insertAtPositionOfRules rules target newRule off
  else
    match getParentRule rules (.rule target) with
    | (none, t) => (false, t)
    | (some p, t) =>
      match insertAtPositionOfRules p.rulesL target newRule off with
      | (true, rs) => (true, (replaceRule p (p.setRules rs) t).1)
      | (false, _) =>
        match insertAtPositionOfRules p.oneOfL target newRule off with
        | (true, os) => (true, (replaceRule p (p.setOneOf os) t).1)
        | (false, _) => (false, t)

/-- Model of `insertBeforeRule`. -/
def insertBeforeRule (rules : RuleList) (beforeRule newRule : Rule) : Bool × RuleList :=
  insertRuleAtOffset rules beforeRule newRule 0

/-- Model of `insertAfterRule`. -/
def insertAfterRule (rules : RuleList) (afterRule newRule : Rule) : Bool × RuleList :=
  insertRuleAtOffset rules afterRule newRule 1

/-- Common body of `insertBeforeUseEntry` (offset 0) and
`insertAfterUseEntry` (offset 1): look up the parent rule, splice into its
`use` array. -/
def insertUseEntryAtOffset (rules : RuleList) (target newEntry : UseItem) (off : Nat) :
    Bool × RuleList :=
  match getParentRule rules (.entry target) with
  | (none, t) => (false, t)
  | (some p, t) =>
    match insertAtPositionOfUse p.useF target newEntry off with
    | (true, u) => (true, (replaceRule p (p.setUse u) t).1)
    | (false, _) => (false, t)

/-- Model of `insertBeforeUseEntry`. -/
def insertBeforeUseEntry (rules : RuleList) (beforeUseEntry newUseEntry : UseItem) :
    Bool × RuleList :=
  insertUseEntryAtOffset rules beforeUseEntry newUseEntry 0

/-- Model of `insertAfterUseEntry`. -/
def insertAfterUseEntry (rules : RuleList) (afterUseEntry newUseEntry : UseItem) :
    Bool × RuleList :=
  insertUseEntryAtOffset rules afterUseEntry newUseEntry 1

/-- The callback of `normalizeRuleset`: normalize in place, never stop. -/
def normVisitor (s : Unit) (r : Rule) : RuleData × Unit × Bool :=
  (normalizeUseEntriesWithinRule r, s, false)

/-- Model of `normalizeRuleset`: normalize every rule of the forest via
the deep traversal. -/
def normalizeRuleset (rules : RuleList) : RuleList :=
  (iterDeep normVisitor rules () false).1

/-! ### Specification helpers (not part of the source; used to state the
claims) -/

/-- Structural deep map over the forest, rewriting each node's scalar
fields: the intended effect of a traversal with a non-stopping callback. -/
def mapDeep (f : Rule → RuleData) : RuleList → RuleList
  | .nil => .nil
  | .cons (.mk l ls q o u rs os) rest =>
    let d := f (.mk l ls q o u rs os)
    .cons (.mk d.loader d.loaders d.query d.options d.use (mapDeep f rs) (mapDeep f os))
      (mapDeep f rest)

/-- Every node of the forest, in depth-first pre-order (node, its `rules`,
its `oneOf`, then the next sibling). -/
def deepNodes : RuleList → List Rule
  | .nil => []
  | .cons (.mk l ls q o u rs os) rest =>
    Rule.mk l ls q o u rs os :: (deepNodes rs ++ deepNodes os ++ deepNodes rest)

/-- `T` is `S` with `x` inserted at one position: the frame property of a
splice. -/
def listInserted (x : α) (S T : List α) : Prop :=
  ∃ i, i ≤ S.length ∧ T = S.take i ++ x :: S.drop i

/-- Rule-sequence version of `listInserted`. -/
def rlInserted (x : Rule) (S T : RuleList) : Prop :=
  ∃ i, i ≤ S.length ∧ T = (S.take i).append (.cons x (S.drop i))

/-! ### Basic lemmas about rules and normalization -/

lemma Rule.withData_data (r : Rule) (d : RuleData) : (r.withData d).data = d := by
  cases r; cases d; rfl

lemma Rule.withData_withData (r : Rule) (d e : RuleData) :
    (r.withData d).withData e = r.withData e := by
  cases r; rfl

lemma normUseItem_idem (it : UseItem) : normUseItem (normUseItem it) = normUseItem it := by
  cases it <;> rfl

lemma map_normUseItem_idem (L : List UseItem) :
    (L.map normUseItem).map normUseItem = L.map normUseItem := by
  induction L with
  | nil => rfl
  | cons it rest ih => simp [List.map_cons, normUseItem_idem, ih]

lemma legacyPhase_of_truthy (d : RuleData) (h : useTruthy d.use = true) :
    legacyPhase d = d := by
  simp [legacyPhase, h]

lemma wrapPhase_of_falsy (d : RuleData) (h : useTruthy d.use = false) :
    wrapPhase d = d := by
  simp [wrapPhase, h]

lemma wrapPhase_list (d : RuleData) (L : List UseItem) (h : d.use = some (.list L)) :
    wrapPhase d = d := by
  rcases d with ⟨l, ls, q, o, u⟩
  simp only at h
  subst h
  rfl

lemma mapPhase_list (d : RuleData) (L : List UseItem) (h : d.use = some (.list L)) :
    mapPhase d = ⟨d.loader, d.loaders, d.query, d.options, some (.list (L.map normUseItem))⟩ := by
  simp [mapPhase, h]

lemma mapPhase_not_list (d : RuleData) (h : ∀ L, d.use ≠ some (.list L)) :
    mapPhase d = d := by
  unfold mapPhase
  split
  · rename_i items heq
    exact absurd heq (h items)
  · rfl

lemma LoaderVal.toUseVal_truthy (lv : LoaderVal) (h : lv.truthy = true) :
    useTruthy (some lv.toUseVal) = true := by
  rcases lv with it | l
  · rcases it with s | e | t <;> simp_all [LoaderVal.truthy, LoaderVal.toUseVal, useTruthy]
  · rfl

lemma legacyPhase_use_shape (d : RuleData) :
    useTruthy (legacyPhase d).use = true ∨ legacyPhase d = d := by
  by_cases hu : useTruthy d.use = true
  · right; exact legacyPhase_of_truthy d hu
  · unfold legacyPhase
    rw [Bool.not_eq_true] at hu
    rw [hu]
    simp only [Bool.not_false, if_true]
    by_cases h1 : (loaderIsString (jsOrLoader d.loaders d.loader)
        && !(optTruthy d.options) && !(optTruthy d.query)) = true
    · rw [if_pos h1]; left; rfl
    · rw [if_neg h1]
      by_cases h2 : (loaderIsString (jsOrLoader d.loaders d.loader)
          && ((!(optTruthy d.options)) != (!(optTruthy d.query)))) = true
      · rw [if_pos h2]; left; rfl
      · rw [if_neg h2]
        by_cases h3 : (loaderFieldTruthy (jsOrLoader d.loaders d.loader)
            && !(optTruthy d.options || optTruthy d.query)) = true
        · rw [if_pos h3]
          rcases hj : jsOrLoader d.loaders d.loader with _ | lv
          · right; rfl
          · left
            have htr : lv.truthy = true := by
              have := (Bool.and_eq_true _ _).mp h3
              rw [hj] at this
              exact this.1
            simpa [deleteLoaderKeys] using LoaderVal.toUseVal_truthy lv htr
        · rw [if_neg h3]; right; rfl

lemma wrapPhase_truthy_out (d : RuleData) (h : useTruthy d.use = true) :
    ∃ L, (wrapPhase d).use = some (.list L) := by
  unfold wrapPhase
  rw [h]
  simp only [if_true]
  rcases hu : d.use with _ | uv
  · rw [hu] at h; exact absurd h (by simp [useTruthy])
  · rcases uv with it | L
    · exact ⟨[it], rfl⟩
    · exact ⟨L, by rw [hu]⟩

/-- Idempotence of the per-rule normalization on the scalar fields. -/
theorem normalizeRuleData_idem (d : RuleData) :
    normalizeRuleData (normalizeRuleData d) = normalizeRuleData d := by
  by_cases hL : ∃ L, (wrapPhase (legacyPhase d)).use = some (UseVal.list L)
  · obtain ⟨L, hL⟩ := hL
    have hnd : normalizeRuleData d =
        ⟨(wrapPhase (legacyPhase d)).loader, (wrapPhase (legacyPhase d)).loaders,
         (wrapPhase (legacyPhase d)).query, (wrapPhase (legacyPhase d)).options,
         some (.list (L.map normUseItem))⟩ := by
      rw [normalizeRuleData, mapPhase_list _ L hL]
    rw [hnd]
    rw [normalizeRuleData, legacyPhase_of_truthy _ (by simp [useTruthy]),
      wrapPhase_list _ (L.map normUseItem) rfl, mapPhase_list _ (L.map normUseItem) rfl]
    simp [map_normUseItem_idem, normUseItem_idem]
  · push_neg at hL
    have hmap : normalizeRuleData d = wrapPhase (legacyPhase d) := by
      rw [normalizeRuleData, mapPhase_not_list _ hL]
    have hfal : useTruthy (legacyPhase d).use = false := by
      by_contra hcon
      rw [Bool.not_eq_false] at hcon
      obtain ⟨L, hLL⟩ := wrapPhase_truthy_out _ hcon
      exact hL L hLL
    have hleg : legacyPhase d = d := by
      rcases legacyPhase_use_shape d with h | h
      · rw [hfal] at h; cases h
      · exact h
    have hself : normalizeRuleData d = d := by
      rw [hmap, hleg, wrapPhase_of_falsy]
      rw [hleg] at hfal
      exact hfal
    rw [hself]
    exact hself

/-- Claim C4: rule normalization is idempotent: normalizing a rule that
was already normalized in place yields a structurally identical rule. -/
theorem c4_normalization_idempotent (r : Rule) : normRule (normRule r) = normRule r := by
  unfold normRule normalizeUseEntriesWithinRule
  rw [Rule.withData_data, Rule.withData_withData, normalizeRuleData_idem]

/-- Claim C5: a rule with no `use`, no `loaders`, string
`loader = "a!b!c"` and neither `options` nor `query` normalizes to the
canonical three-entry `use` array, with the `loader` and `loaders` fields
removed; the child forests are untouched. -/
theorem c5_loader_string_split (rs os : RuleList) :
    normRule (.mk (some (.item (.str "a!b!c"))) none none none none rs os) =
      .mk none none none none
        (some (.list [.obj ⟨some (.str "a"), none, none⟩,
                      .obj ⟨some (.str "b"), none, none⟩,
                      .obj ⟨some (.str "c"), none, none⟩])) rs os := by
  rfl

/-- Claim C6: a rule with no `use`, no `loaders`, a string loader and
exactly one of `options`/`query` truthy normalizes to a one-entry `use`
array carrying loader, options and query, with all four legacy fields
removed. -/
theorem c6_loader_with_options (s : String) (opts q : Option JsVal) (rs os : RuleList)
    (h : optTruthy opts ≠ optTruthy q) :
    normRule (.mk (some (.item (.str s))) none q opts none rs os) =
      .mk none none none none
        (some (.list [.obj ⟨some (.str s), opts, q⟩])) rs os := by
  cases ho : optTruthy opts <;> cases hq : optTruthy q
  · rw [ho, hq] at h; exact absurd rfl h
  · simp [normRule, normalizeUseEntriesWithinRule, normalizeRuleData, legacyPhase, wrapPhase,
      mapPhase, Rule.data, Rule.withData, jsOrLoader, loaderFieldTruthy, loaderIsString,
      loaderStringOf, useTruthy, deleteLoaderKeys, ho, hq, normUseItem]
  · simp [normRule, normalizeUseEntriesWithinRule, normalizeRuleData, legacyPhase, wrapPhase,
      mapPhase, Rule.data, Rule.withData, jsOrLoader, loaderFieldTruthy, loaderIsString,
      loaderStringOf, useTruthy, deleteLoaderKeys, ho, hq, normUseItem]
  · rw [ho, hq] at h; exact absurd rfl h

/-- Witness for claim C6 at a concrete rule: a truthy options object and
an absent query. -/
theorem c6_loader_with_options_witness :
    optTruthy (some (.obj 0)) ≠ optTruthy none ∧
    normRule (.mk (some (.item (.str "x"))) none none (some (.obj 0)) none .nil .nil) =
      .mk none none none none
        (some (.list [.obj ⟨some (.str "x"), some (.obj 0), none⟩])) .nil .nil :=
  ⟨by decide, c6_loader_with_options "x" (some (.obj 0)) none .nil .nil (by decide)⟩

/-- Claim C7: every search operation applied to a matcher of an invalid
type returns the TypeError thrown by matcher normalization before any
traversal, with the forest unchanged. -/
theorem c7_invalid_matcher_error (rules : RuleList) (tag : Nat) :
    getLoader rules (.other tag) = (.error (), rules) ∧
    getRuleByLoader rules (.other tag) = (.error (), rules) ∧
    getAllLoaders rules (.other tag) = (.error (), rules) ∧
    getAllRulesByLoader rules (.other tag) = (.error (), rules) :=
  ⟨rfl, rfl, rfl, rfl⟩

/-- Claim C9: inserting after a rule found at forest root splices the new
rule immediately after the target's index and returns true. -/
theorem c9_insert_after_root (a b c x : Rule)
    (hab : a ≠ b) (hac : a ≠ c) (hbc : b ≠ c) :
    insertAfterRule (.cons a (.cons b (.cons c .nil))) b x =
      (true, .cons a (.cons b (.cons x (.cons c .nil)))) := by
  simp [insertAfterRule, insertRuleAtOffset, RuleList.memb, insertAtPositionOfRules,
    RuleList.idxOf, RuleList.insertAt, hab]

/-- Witness for claim C9 at three concrete pairwise distinct rules. -/
theorem c9_insert_after_root_witness :
    ((Rule.mk none none none none (some (.single (.str "A"))) .nil .nil) ≠
       (Rule.mk none none none none (some (.single (.str "B"))) .nil .nil)) ∧
    insertAfterRule
      (.cons (.mk none none none none (some (.single (.str "A"))) .nil .nil)
        (.cons (.mk none none none none (some (.single (.str "B"))) .nil .nil)
          (.cons (.mk none none none none (some (.single (.str "C"))) .nil .nil) .nil)))
      (.mk none none none none (some (.single (.str "B"))) .nil .nil)
      (.mk none none none none (some (.single (.str "X"))) .nil .nil) =
      (true,
       .cons (.mk none none none none (some (.single (.str "A"))) .nil .nil)
        (.cons (.mk none none none none (some (.single (.str "B"))) .nil .nil)
          (.cons (.mk none none none none (some (.single (.str "X"))) .nil .nil)
            (.cons (.mk none none none none (some (.single (.str "C"))) .nil .nil) .nil)))) :=
  ⟨by decide, c9_insert_after_root _ _ _ _ (by decide) (by decide) (by decide)⟩

/-! ### Traversal lemmas -/

/-- The carry flag is never true after a traversal started with a false
carry: the source resets it to false on every break and nothing ever sets
it (this is the mechanism that fails to propagate the stop upward). -/
lemma iterDeep_carry_false {σ : Type} (v : σ → Rule → RuleData × σ × Bool) :
    ∀ (F : RuleList) (s : σ), (iterDeep v F s false).2.2 = false
  | .nil, _ => rfl
  | .cons (.mk l ls q o u rs os) rest, s => by
    by_cases hstop : (v s (Rule.mk l ls q o u rs os)).2.2 = true <;>
      simp only [iterDeep, Bool.false_eq_true, if_false, hstop, if_true] <;>
      simp [iterDeep_carry_false v rs, iterDeep_carry_false v os, iterDeep_carry_false v rest,
        hstop]

/-- A traversal whose callback never signals the stop on any reachable
node rewrites each node's scalar fields independently: it is the deep map
of the callback's data output. -/
lemma iterDeep_no_stop {σ : Type} (v : σ → Rule → RuleData × σ × Bool) (f : Rule → RuleData) :
    ∀ (F : RuleList) (s : σ),
      (∀ (s1 : σ), ∀ r ∈ deepNodes F, (v s1 r).1 = f r ∧ (v s1 r).2.2 = false) →
      (iterDeep v F s false).1 = mapDeep f F
  | .nil, _, _ => rfl
  | .cons (.mk l ls q o u rs os) rest, s, h => by
    have hnode := h s (Rule.mk l ls q o u rs os) (by simp [deepNodes])
    have hrs : ∀ (s1 : σ), ∀ r ∈ deepNodes rs, (v s1 r).1 = f r ∧ (v s1 r).2.2 = false :=
      fun s1 r hr => h s1 r (by simp [deepNodes, hr])
    have hos : ∀ (s1 : σ), ∀ r ∈ deepNodes os, (v s1 r).1 = f r ∧ (v s1 r).2.2 = false :=
      fun s1 r hr => h s1 r (by simp [deepNodes, hr])
    have hrest : ∀ (s1 : σ), ∀ r ∈ deepNodes rest, (v s1 r).1 = f r ∧ (v s1 r).2.2 = false :=
      fun s1 r hr => h s1 r (by simp [deepNodes, hr])
    simp only [iterDeep, Bool.false_eq_true, if_false, hnode.2, mapDeep, hnode.1,
      iterDeep_carry_false,
      iterDeep_no_stop v f rs _ hrs, iterDeep_no_stop v f os _ hos,
      iterDeep_no_stop v f rest _ hrest]

/-- `normalizeRuleset` normalizes every node of the forest in place. -/
lemma normalizeRuleset_eq_mapDeep (F : RuleList) :
    normalizeRuleset F = mapDeep normalizeUseEntriesWithinRule F := by
  unfold normalizeRuleset
  exact iterDeep_no_stop _ _ F () (fun _ r _ => ⟨rfl, rfl⟩)

/-- When the target is contained in no reachable rule, the parent lookup's
traversal leaves its result state untouched. -/
lemma iterDeep_parent_not_found (t : RuleOrEntry) :
    ∀ (F : RuleList) (s : Option Rule),
      (∀ r ∈ deepNodes F, parentFound t (normRule r) = false) →
      (iterDeep (parentVisitor t) F s false).2.1 = s
  | .nil, _, _ => rfl
  | .cons (.mk l ls q o u rs os) rest, s, h => by
    have hnode := h (Rule.mk l ls q o u rs os) (by simp [deepNodes])
    have hrs : ∀ r ∈ deepNodes rs, parentFound t (normRule r) = false :=
      fun r hr => h r (by simp [deepNodes, hr])
    have hos : ∀ r ∈ deepNodes os, parentFound t (normRule r) = false :=
      fun r hr => h r (by simp [deepNodes, hr])
    have hrest : ∀ r ∈ deepNodes rest, parentFound t (normRule r) = false :=
      fun r hr => h r (by simp [deepNodes, hr])
    have hv : (parentVisitor t s (Rule.mk l ls q o u rs os)).2.2 = false := by
      simp [parentVisitor, normRule, normalizeUseEntriesWithinRule] at hnode ⊢
      simp [hnode]
    simp only [iterDeep, Bool.false_eq_true, if_false, hv, iterDeep_carry_false]
    have hs1 : (parentVisitor t s (Rule.mk l ls q o u rs os)).2.1 = s := by
      simp [parentVisitor, normRule, normalizeUseEntriesWithinRule] at hnode ⊢
      simp [hnode]
    rw [iterDeep_parent_not_found t rest _ hrest,
      iterDeep_parent_not_found t os _ hos,
      iterDeep_parent_not_found t rs _ hrs, hs1]

/-- The stop branch of the parent visitor is exactly the containment test
on the normalized rule, so a traversal that never finds the target also
never stops and its tree output is the full normalization pass. -/
lemma iterDeep_parent_tree_not_found (t : RuleOrEntry) (F : RuleList)
    (h : ∀ r ∈ deepNodes F, parentFound t (normRule r) = false) :
    (iterDeep (parentVisitor t) F none false).1 = mapDeep normalizeUseEntriesWithinRule F := by
  refine iterDeep_no_stop _ _ F none (fun s1 r hr => ?_)
  have := h r hr
  constructor
  · by_cases hp : parentFound t (r.withData (normalizeUseEntriesWithinRule r)) = true <;>
      simp [parentVisitor, hp]
  · simp [parentVisitor, normRule, normalizeUseEntriesWithinRule] at this ⊢
    simp [this]

/-! ### Claims C1, C2, C3 -/

/-- A pure observation callback for exercising the traversal: it records
the `use` field of every rule the callback is invoked on, leaves the rule
unchanged, and returns the stop signal exactly on a rule whose `use` is
the given marker string. -/
def logVisitor (stopAtUse : String) (s : List (Option UseVal)) (r : Rule) :
    RuleData × List (Option UseVal) × Bool :=
  (r.data, s ++ [r.useF], r.useF == some (.single (.str stopAtUse)))

/-- Claim C1 (code bug): on the forest a(rules = b), c the callback stops
at the nested rule b, yet the traversal still invokes the callback on the
root sibling c: the visit log is a, b, c instead of a, b.  The carry
object of the source is reset to false on a break but never set to true,
so the stop never propagates past the level at which it was signaled. -/
theorem c1_deep_stop_not_global :
    (iterDeep (logVisitor "b")
      (.cons (.mk none none none none (some (.single (.str "a")))
         (.cons (.mk none none none none (some (.single (.str "b"))) .nil .nil) .nil) .nil)
       (.cons (.mk none none none none (some (.single (.str "c"))) .nil .nil) .nil))
      [] false).2.1 =
    [some (.single (.str "a")), some (.single (.str "b")), some (.single (.str "c"))] := by
  decide

/-- Claim C2 counterexample: the string matcher "babel-loader" does match
the use entry with loader "/proj/src/my-babel-loader-wrapper.js", so the
claimed conjunction (true on the node_modules path, false on the wrapper
path) fails on the code. -/
theorem c2_counterexample :
    ¬ (stringMatcherTest "babel-loader" "/proj/node_modules/babel-loader/index.js" = true ∧
       stringMatcherTest "babel-loader" "/proj/src/my-babel-loader-wrapper.js" = false) := by
  decide

/-- Claim C2 as amended: the matcher produced from the string
"babel-loader" returns true on both use entries: the word-boundary
pattern also matches the name inside the longer hyphenated segment
"my-babel-loader-wrapper", because a hyphen is a non-word character and
therefore itself constitutes a word boundary. -/
theorem c2_string_matcher_word_boundary :
    (normalizeLoaderMatcher (.str "babel-loader")).map
      (fun f =>
        (f (.obj ⟨some (.str "/proj/node_modules/babel-loader/index.js"), none, none⟩),
         f (.obj ⟨some (.str "/proj/src/my-babel-loader-wrapper.js"), none, none⟩))) =
      .ok (.ok true, .ok true) := by
  rfl

/-- Claim C3 counterexample: inserting before a use entry that is present
nowhere returns false, but the forest is not left unmodified: the parent
lookup's traversal normalizes the legacy rule (loader "a") in place. -/
theorem c3_counterexample :
    (insertBeforeUseEntry
        (.cons (.mk (some (.item (.str "a"))) none none none none .nil .nil) .nil)
        (.obj ⟨some (.str "zzz"), none, none⟩) (.obj ⟨some (.str "n"), none, none⟩)).1
      = false ∧
    (insertBeforeUseEntry
        (.cons (.mk (some (.item (.str "a"))) none none none none .nil .nil) .nil)
        (.obj ⟨some (.str "zzz"), none, none⟩) (.obj ⟨some (.str "n"), none, none⟩)).2
      ≠ .cons (.mk (some (.item (.str "a"))) none none none none .nil .nil) .nil := by
  decide

/-- Claim C3 as amended: when the target use entry is contained in no rule
of the forest, `insertBeforeUseEntry` returns false and performs no
insertion; the forest after the call is exactly the input forest with
every rule normalized in place (the effect of `normalizeRuleset`), since
the parent lookup's traversal normalizes every rule it visits.  On an
already-normalized forest it is therefore completely unmodified. -/
theorem c3_insert_absent_target (F : RuleList) (t x : UseItem)
    (h : ∀ r ∈ deepNodes F, parentFound (.entry t) (normRule r) = false) :
    insertBeforeUseEntry F t x = (false, normalizeRuleset F) := by
  unfold insertBeforeUseEntry insertUseEntryAtOffset getParentRule
  simp only [iterDeep_parent_not_found (.entry t) F none h,
    iterDeep_parent_tree_not_found (.entry t) F h, normalizeRuleset_eq_mapDeep]

/-- Witness for claim C3 on a concrete forest holding one legacy rule and
a target entry absent from it. -/
theorem c3_insert_absent_target_witness :
    (∀ r ∈ deepNodes (.cons (.mk (some (.item (.str "a"))) none none none none .nil .nil) .nil),
        parentFound (.entry (.obj ⟨some (.str "zzz"), none, none⟩)) (normRule r) = false) ∧
    insertBeforeUseEntry
      (.cons (.mk (some (.item (.str "a"))) none none none none .nil .nil) .nil)
      (.obj ⟨some (.str "zzz"), none, none⟩) (.obj ⟨some (.str "q"), none, none⟩) =
      (false, normalizeRuleset
        (.cons (.mk (some (.item (.str "a"))) none none none none .nil .nil) .nil)) :=
  ⟨by decide,
   c3_insert_absent_target _ (.obj ⟨some (.str "zzz"), none, none⟩)
     (.obj ⟨some (.str "q"), none, none⟩) (by decide)⟩

/-! ### Claim C8: first-match search against collect-all search -/

/-- All matches the search callback collects from one rule. -/
def allMatchesOfRule (mt : UseItem → Bool) (r : Rule) : List (Rule × UseItem) :=
  match (normalizeUseEntriesWithinRule r).use with
  | some (.list items) =>
      (scanUse mt false (r.withData (normalizeUseEntriesWithinRule r)) items).1
  | _ => []

/-- Matches collected by the traversal without the stop flag, in pure
recursive form. -/
def deepAllMatches (mt : UseItem → Bool) : RuleList → List (Rule × UseItem)
  | .nil => []
  | .cons (.mk l ls q o u rs os) rest =>
    allMatchesOfRule mt (.mk l ls q o u rs os) ++
      (deepAllMatches mt rs ++ (deepAllMatches mt os ++ deepAllMatches mt rest))

/-- Matches collected by the traversal with the stop flag, in pure
recursive form: a matching rule contributes its first match and ends the
current level, and (because the stop does not propagate upward) an
enclosing level still continues with the `oneOf` forest and the following
siblings. -/
def stopRunMatches (mt : UseItem → Bool) : RuleList → List (Rule × UseItem)
  | .nil => []
  | .cons (.mk l ls q o u rs os) rest =>
    if (allMatchesOfRule mt (.mk l ls q o u rs os)).isEmpty then
      stopRunMatches mt rs ++ (stopRunMatches mt os ++ stopRunMatches mt rest)
    else (allMatchesOfRule mt (.mk l ls q o u rs os)).take 1

lemma scanUse_false_no_stop (mt : UseItem → Bool) (rn : Rule) :
    ∀ items, (scanUse mt false rn items).2 = false
  | [] => rfl
  | it :: rest => by
    by_cases h : mt it = true <;>
      simp [scanUse, h, scanUse_false_no_stop mt rn rest]

lemma scanUse_true_take (mt : UseItem → Bool) (rn : Rule) :
    ∀ items, scanUse mt true rn items =
      ((scanUse mt false rn items).1.take 1, !(scanUse mt false rn items).1.isEmpty)
  | [] => rfl
  | it :: rest => by
    by_cases h : mt it = true <;>
      simp [scanUse, h, scanUse_true_take mt rn rest]

/-- The search callback in terms of `allMatchesOfRule`: the state grows by
the rule's matches (just the first with the stop flag), and the stop is
signaled exactly when the flag is set and a match exists. -/
lemma findVisitor_eq (mt : UseItem → Bool) (b : Bool) (s : List (Rule × UseItem)) (r : Rule) :
    findVisitor mt b s r =
      (normalizeUseEntriesWithinRule r,
       s ++ (if b then (allMatchesOfRule mt r).take 1 else allMatchesOfRule mt r),
       b && !(allMatchesOfRule mt r).isEmpty) := by
  unfold findVisitor allMatchesOfRule
  rcases hu : (normalizeUseEntriesWithinRule r).use with _ | uv
  · cases b <;> simp [hu]
  · rcases uv with it | items
    · cases b <;> simp [hu]
    · cases b with
      | false => simp [hu, scanUse_false_no_stop]
      | true => simp [hu, scanUse_true_take]

lemma iterDeep_findAll_state (mt : UseItem → Bool) :
    ∀ (F : RuleList) (acc : List (Rule × UseItem)),
      (iterDeep (findVisitor mt false) F acc false).2.1 = acc ++ deepAllMatches mt F
  | .nil, acc => by simp [iterDeep, deepAllMatches]
  | .cons (.mk l ls q o u rs os) rest, acc => by
    simp only [iterDeep, Bool.false_eq_true, if_false, findVisitor_eq, Bool.false_and,
      iterDeep_carry_false, deepAllMatches,
      iterDeep_findAll_state mt rs, iterDeep_findAll_state mt os,
      iterDeep_findAll_state mt rest]
    simp [List.append_assoc]

lemma iterDeep_findStop_state (mt : UseItem → Bool) :
    ∀ (F : RuleList) (acc : List (Rule × UseItem)),
      (iterDeep (findVisitor mt true) F acc false).2.1 = acc ++ stopRunMatches mt F
  | .nil, acc => by simp [iterDeep, stopRunMatches]
  | .cons (.mk l ls q o u rs os) rest, acc => by
    by_cases he : (allMatchesOfRule mt (.mk l ls q o u rs os)).isEmpty
    · have htake : (allMatchesOfRule mt (.mk l ls q o u rs os)).take 1 = [] := by
        rw [List.isEmpty_iff] at he
        simp [he]
      simp only [iterDeep, Bool.false_eq_true, if_false, findVisitor_eq, he, Bool.not_true,
        Bool.and_false, iterDeep_carry_false, stopRunMatches, if_pos he, htake,
        iterDeep_findStop_state mt rs, iterDeep_findStop_state mt os,
        iterDeep_findStop_state mt rest]
      simp [List.append_assoc]
    · simp only [iterDeep, Bool.false_eq_true, if_false, findVisitor_eq, he, Bool.not_false,
        Bool.and_true, if_true, stopRunMatches, if_neg he]

lemma hd_append {α : Type} (a b : List α) : (a ++ b).head? = a.head?.or b.head? := by
  cases a <;> simp [Option.or]

/-- The stop-flagged traversal and the collect-all traversal find the same
first match: the two runs coincide up to the point of the first match. -/
lemma stop_head_eq (mt : UseItem → Bool) :
    ∀ F : RuleList, (stopRunMatches mt F).head? = (deepAllMatches mt F).head?
  | .nil => rfl
  | .cons (.mk l ls q o u rs os) rest => by
    by_cases he : (allMatchesOfRule mt (.mk l ls q o u rs os)).isEmpty
    · have hnil : allMatchesOfRule mt (.mk l ls q o u rs os) = [] := List.isEmpty_iff.mp he
      simp only [stopRunMatches, deepAllMatches, if_pos he]
      simp only [hnil, List.nil_append, hd_append,
        stop_head_eq mt rs, stop_head_eq mt os, stop_head_eq mt rest]
    · have hne : allMatchesOfRule mt (.mk l ls q o u rs os) ≠ [] := by
        simpa [List.isEmpty_iff] using he
      obtain ⟨a, tl, hL⟩ := List.exists_cons_of_ne_nil hne
      simp [stopRunMatches, deepAllMatches, if_neg he, hL]

lemma findByLoader_head (F : RuleList) (mt : UseItem → Bool) :
    ((iterDeep (findVisitor mt true) F [] false).2.1).head? =
      ((iterDeep (findVisitor mt false) F [] false).2.1).head? := by
  rw [iterDeep_findStop_state, iterDeep_findAll_state]
  simp [stop_head_eq]

/-- The Boolean a successful matcher evaluation produced (only read under
a proof that the evaluation did not fault). -/
def okBool : Except Unit Bool → Bool
  | .ok b => b
  | .error _ => false

/-- Whether a matcher evaluation succeeded (no match-time TypeError). -/
def exIsOk : Except Unit Bool → Bool
  | .ok _ => true
  | .error _ => false

/-- The `use` array elements of a rule (empty when `use` is not an array):
the entries a search traversal applies the matcher to. -/
def ruleUseItems (r : Rule) : List UseItem :=
  match r.useF with
  | some (.list l) => l
  | _ => []

/-- The matcher faults on no use entry of the (normalized) forest: on such
a forest the search runs are error-free. -/
def matcherTotalOn (mt : UseItem → Except Unit Bool) (F : RuleList) : Bool :=
  (deepNodes F).all (fun r => (ruleUseItems (normRule r)).all (fun it => exIsOk (mt it)))

lemma Rule.withData_useF (r : Rule) (d : RuleData) : (r.withData d).useF = d.use := by
  cases r; rfl

lemma ruleUseItems_normRule (r : Rule) :
    ruleUseItems (normRule r) =
      (match (normalizeUseEntriesWithinRule r).use with
       | some (.list l) => l
       | _ => []) := by
  unfold ruleUseItems normRule
  rw [Rule.withData_useF]

lemma matcherTotalOn_cons (mt : UseItem → Except Unit Bool)
    (l ls : Option LoaderVal) (q o : Option JsVal) (u : Option UseVal) (rs os rest : RuleList)
    (h : matcherTotalOn mt (.cons (.mk l ls q o u rs os) rest) = true) :
    (∀ it ∈ ruleUseItems (normRule (.mk l ls q o u rs os)), exIsOk (mt it) = true) ∧
    matcherTotalOn mt rs = true ∧ matcherTotalOn mt os = true ∧
    matcherTotalOn mt rest = true := by
  simp only [matcherTotalOn, deepNodes, List.all_cons, List.all_append, Bool.and_eq_true] at h
  exact ⟨List.all_eq_true.mp h.1, h.2.1.1, h.2.1.2, h.2.2⟩

/-- On entries where the matcher does not fault, the TypeError-aware scan
is the error-free scan of the underlying Boolean matcher. -/
lemma scanUseE_total (mt : UseItem → Except Unit Bool) (b : Bool) (rn : Rule) :
    ∀ items, (∀ it ∈ items, exIsOk (mt it) = true) →
      scanUseE mt b rn items = .ok (scanUse (fun it => okBool (mt it)) b rn items)
  | [], _ => rfl
  | it :: rest, h => by
    have hrest : ∀ x ∈ rest, exIsOk (mt x) = true :=
      fun x hx => h x (List.mem_cons_of_mem _ hx)
    have hit : exIsOk (mt it) = true := h it (List.mem_cons_self _ _)
    rcases hmt : mt it with e | bb
    · rw [hmt] at hit
      simp [exIsOk] at hit
    · cases bb with
      | false =>
        simp only [scanUseE, scanUse, hmt, okBool, Bool.false_eq_true, if_false,
          scanUseE_total mt b rn rest hrest]
      | true =>
        cases b with
        | true => simp [scanUseE, scanUse, hmt, okBool]
        | false =>
          simp [scanUseE, scanUse, hmt, okBool, scanUseE_total mt false rn rest hrest]

/-- On a rule none of whose entries fault, the TypeError-aware search
callback is the error-free one. -/
lemma findVisitorE_total (mt : UseItem → Except Unit Bool) (b : Bool)
    (s : List (Rule × UseItem)) (r : Rule)
    (h : ∀ it ∈ ruleUseItems (normRule r), exIsOk (mt it) = true) :
    findVisitorE mt b s r =
      ((findVisitor (fun it => okBool (mt it)) b s r).1,
       .ok ((findVisitor (fun it => okBool (mt it)) b s r).2.1,
            (findVisitor (fun it => okBool (mt it)) b s r).2.2)) := by
  rw [ruleUseItems_normRule] at h
  unfold findVisitorE findVisitor
  rcases hu : (normalizeUseEntriesWithinRule r).use with _ | uv
  · simp [hu]
  · rcases uv with it | items
    · simp [hu]
    · rw [hu] at h
      simp only [hu, scanUseE_total mt b _ items h]

/-- On a forest where the matcher never faults, the TypeError-aware search
traversal is the error-free traversal wrapped in `.ok`. -/
lemma iterDeepE_findE_total (mt : UseItem → Except Unit Bool) (b : Bool) :
    ∀ (F : RuleList) (s : List (Rule × UseItem)),
      matcherTotalOn mt F = true →
      iterDeepE (findVisitorE mt b) F s false =
        ((iterDeep (findVisitor (fun it => okBool (mt it)) b) F s false).1,
         .ok ((iterDeep (findVisitor (fun it => okBool (mt it)) b) F s false).2.1,
              (iterDeep (findVisitor (fun it => okBool (mt it)) b) F s false).2.2))
  | .nil, s, _ => rfl
  | .cons (.mk l ls q o u rs os) rest, s, h => by
    obtain ⟨hnode, hrs, hos, hrest⟩ := matcherTotalOn_cons mt l ls q o u rs os rest h
    by_cases hst :
        (findVisitor (fun it => okBool (mt it)) b s (Rule.mk l ls q o u rs os)).2.2 = true <;>
      simp only [iterDeepE, iterDeep, Bool.false_eq_true, if_false,
        findVisitorE_total mt b s _ hnode, hst, if_true,
        iterDeep_carry_false,
        iterDeepE_findE_total mt b rs, iterDeepE_findE_total mt b os,
        iterDeepE_findE_total mt b rest, hrs, hos, hrest]

lemma findByLoader_total (F : RuleList) (m : Matcher) (mt : UseItem → Except Unit Bool)
    (b : Bool) (hm : normalizeLoaderMatcher m = .ok mt)
    (htot : matcherTotalOn mt F = true) :
    findByLoader F m b =
      (.ok ((iterDeep (findVisitor (fun it => okBool (mt it)) b) F [] false).2.1),
       (iterDeep (findVisitor (fun it => okBool (mt it)) b) F [] false).1) := by
  unfold findByLoader
  rw [hm]
  simp only [iterDeepE_findE_total mt b F [] htot]

/-- Claim C8 counterexample: on the forest holding one rule with
use = [loader string, bare function] the string matcher faults on the
function element, but only the collect-all run reaches it: `getLoader`
stops at the first match and returns the entry while `getAllLoaders`
throws the TypeError, so the claimed head relationship fails on the code. -/
theorem c8_counterexample :
    (getLoader
        (.cons (.mk none none none none
          (some (.list [.str "babel-loader", .fn 0])) .nil .nil) .nil)
        (.str "babel-loader")).1 =
      .ok (some (.obj ⟨some (.str "babel-loader"), none, none⟩)) ∧
    (getAllLoaders
        (.cons (.mk none none none none
          (some (.list [.str "babel-loader", .fn 0])) .nil .nil) .nil)
        (.str "babel-loader")).1 = .error () ∧
    ¬ ((getLoader
          (.cons (.mk none none none none
            (some (.list [.str "babel-loader", .fn 0])) .nil .nil) .nil)
          (.str "babel-loader")).1 =
        Except.map List.head?
          (getAllLoaders
            (.cons (.mk none none none none
              (some (.list [.str "babel-loader", .fn 0])) .nil .nil) .nil)
            (.str "babel-loader")).1) :=
  ⟨rfl, rfl, fun h => Except.noConfusion h⟩

/-- Claim C8 as amended: for every forest and every valid matcher that
raises no match-time TypeError on any use entry of the normalized forest
(in particular, whenever `getAllLoaders` returns a sequence at all),
`getLoader` returns the head of the sequence `getAllLoaders` returns on
the same initial forest — the null sentinel exactly when that sequence is
empty — and likewise `getRuleByLoader` returns the head of
`getAllRulesByLoader`.  Without that proviso the relation can fail: the
first-match run stops before entries the collect-all run still evaluates,
so the latter may throw where the former returns a value. -/
theorem c8_get_first_of_all (F : RuleList) (m : Matcher) (mt : UseItem → Except Unit Bool)
    (hm : normalizeLoaderMatcher m = .ok mt) (htot : matcherTotalOn mt F = true) :
    (getLoader F m).1 = Except.map List.head? (getAllLoaders F m).1 ∧
    (getRuleByLoader F m).1 = Except.map List.head? (getAllRulesByLoader F m).1 := by
  have hT := findByLoader_total F m mt true hm htot
  have hF := findByLoader_total F m mt false hm htot
  constructor
  · simp only [getLoader, getAllLoaders, hT, hF, Except.map, List.head?_map, findByLoader_head]
  · simp only [getRuleByLoader, getAllRulesByLoader, hT, hF, Except.map, List.head?_map,
      findByLoader_head]

/-- Witness for claim C8 at a concrete forest and a concrete string
matcher that faults nowhere on it. -/
theorem c8_get_first_of_all_witness :
    normalizeLoaderMatcher (.str "a") =
      .ok (fun it => (itemLoaderString it).map (stringMatcherTest "a")) ∧
    matcherTotalOn (fun it => (itemLoaderString it).map (stringMatcherTest "a"))
      (.cons (.mk none none none none (some (.single (.str "a"))) .nil .nil) .nil) = true ∧
    ((getLoader (.cons (.mk none none none none (some (.single (.str "a"))) .nil .nil) .nil)
        (.str "a")).1 =
      Except.map List.head?
        (getAllLoaders
          (.cons (.mk none none none none (some (.single (.str "a"))) .nil .nil) .nil)
          (.str "a")).1 ∧
     (getRuleByLoader
        (.cons (.mk none none none none (some (.single (.str "a"))) .nil .nil) .nil)
        (.str "a")).1 =
      Except.map List.head?
        (getAllRulesByLoader
          (.cons (.mk none none none none (some (.single (.str "a"))) .nil .nil) .nil)
          (.str "a")).1) :=
  ⟨rfl, by decide,
   c8_get_first_of_all _ (.str "a") _ rfl (by decide)⟩

/-! ### Claim C10: insertion as a pure splice of one sequence -/

/-- The `use` field of the first root rule (projection used to exhibit the
counterexample). -/
def firstRuleUse : RuleList → Option UseVal
  | .nil => none
  | .cons r _ => r.useF

lemma RuleList.idxOf_lt (t : Rule) :
    ∀ (S : RuleList) (i : Nat), S.idxOf t = some i → i < S.length
  | .nil, i => by simp [RuleList.idxOf]
  | .cons r rest, i => by
    unfold RuleList.idxOf
    by_cases hr : (r == t) = true
    · simp only [hr, if_true]
      intro h
      cases h
      simp [RuleList.length]
    · simp only [hr, Bool.false_eq_true, if_false]
      rcases hi : rest.idxOf t with _ | j
      · simp
      · intro h
        cases h
        have := RuleList.idxOf_lt t rest j hi
        simp [RuleList.length]
        omega

lemma RuleList.insertAt_eq (x : Rule) :
    ∀ (S : RuleList) (j : Nat), j ≤ S.length →
      S.insertAt j x = (S.take j).append (.cons x (S.drop j))
  | S, 0, _ => by cases S <;> rfl
  | .nil, j + 1, h => by simp [RuleList.length] at h
  | .cons r rest, j + 1, h => by
    have hj : j ≤ rest.length := by
      simp [RuleList.length] at h
      omega
    simp only [RuleList.insertAt, RuleList.take, RuleList.drop, RuleList.append,
      RuleList.insertAt_eq x rest j hj]

lemma insertAtPositionOfRules_shape (S : RuleList) (t x : Rule) (off : Nat)
    (hoff : off ≤ 1) (h : (insertAtPositionOfRules S t x off).1 = true) :
    ∃ S', insertAtPositionOfRules S t x off = (true, S') ∧ rlInserted x S S' := by
  unfold insertAtPositionOfRules at h ⊢
  split at h
  · simp at h
  · rename_i i hi
    have hlt := RuleList.idxOf_lt t S i hi
    have hle : i + off ≤ S.length := by omega
    refine ⟨S.insertAt (i + off) x, ?_, i + off, hle, RuleList.insertAt_eq x S (i + off) hle⟩
    rfl

lemma listIdxOf_lt {α : Type} [DecidableEq α] (t : α) :
    ∀ (l : List α) (i : Nat), listIdxOf l t = some i → i < l.length
  | [], i => by simp [listIdxOf]
  | a :: rest, i => by
    by_cases ha : a = t
    · simp only [listIdxOf, if_pos ha]
      intro h
      cases h
      simp
    · simp only [listIdxOf, if_neg ha]
      intro h
      rcases hmap : listIdxOf rest t with _ | j
      · rw [hmap] at h
        simp at h
      · rw [hmap] at h
        have hj := listIdxOf_lt t rest j hmap
        simp at h
        simp [List.length_cons]
        omega

lemma insertAtPositionOfUse_shape (u : Option UseVal) (t x : UseItem) (off : Nat)
    (hoff : off ≤ 1) (h : (insertAtPositionOfUse u t x off).1 = true) :
    ∃ l l', u = some (.list l) ∧ insertAtPositionOfUse u t x off = (true, some (.list l')) ∧
      listInserted x l l' := by
  unfold insertAtPositionOfUse at h ⊢
  split at h
  · rename_i l
    split at h
    · simp at h
    · rename_i i hi
      have hlt := listIdxOf_lt t l i hi
      have hle : i + off ≤ l.length := by omega
      refine ⟨l, listInsertAt l (i + off) x, rfl, ?_, i + off, hle, rfl⟩
      rfl
  · simp at h

/-- Outcome of a successful rule insertion: the new rule was spliced into
the root forest, or into the found parent's `rules` or `oneOf` sequence,
each compared as of the moment of the splice (after the parent lookup's
in-place normalization pass over the forest). -/
def ruleInsertOutcome (F : RuleList) (t x : Rule) (post : RuleList) : Prop :=
  rlInserted x F post ∨
  (∃ p T', getParentRule F (.rule t) = (some p, T') ∧
    ((∃ rs', rlInserted x p.rulesL rs' ∧ post = (replaceRule p (p.setRules rs') T').1) ∨
     (∃ os', rlInserted x p.oneOfL os' ∧ post = (replaceRule p (p.setOneOf os') T').1)))

/-- Outcome of a successful use-entry insertion: the new entry was spliced
into the found parent's (already normalized) `use` array. -/
def useInsertOutcome (F : RuleList) (t x : UseItem) (post : RuleList) : Prop :=
  ∃ p T' l l', getParentRule F (.entry t) = (some p, T') ∧ p.useF = some (.list l) ∧
    listInserted x l l' ∧ post = (replaceRule p (p.setUse (some (.list l'))) T').1

lemma insertRuleAtOffset_frame (F : RuleList) (t x : Rule) (off : Nat) (post : RuleList)
    (hoff : off ≤ 1) (h : insertRuleAtOffset F t x off = (true, post)) :
    ruleInsertOutcome F t x post := by
  unfold insertRuleAtOffset at h
  split at h
  · left
    have h1 : (insertAtPositionOfRules F t x off).1 = true := by rw [h]
    obtain ⟨S', hS', hins⟩ := insertAtPositionOfRules_shape F t x off hoff h1
    rw [h] at hS'
    simp only [Prod.mk.injEq, true_and] at hS'
    rw [hS']
    exact hins
  · split at h
    · simp at h
    · rename_i p tr hPT
      split at h
      · rename_i rs hrs
        simp only [Prod.mk.injEq, true_and] at h
        right
        have h1 : (insertAtPositionOfRules p.rulesL t x off).1 = true := by rw [hrs]
        obtain ⟨S', hS', hins⟩ := insertAtPositionOfRules_shape p.rulesL t x off hoff h1
        rw [hrs] at hS'
        simp only [Prod.mk.injEq, true_and] at hS'
        refine ⟨p, tr, hPT, Or.inl ⟨rs, ?_, h.symm⟩⟩
        rw [hS']
        exact hins
      · split at h
        · rename_i os hos
          simp only [Prod.mk.injEq, true_and] at h
          right
          have h1 : (insertAtPositionOfRules p.oneOfL t x off).1 = true := by rw [hos]
          obtain ⟨S', hS', hins⟩ := insertAtPositionOfRules_shape p.oneOfL t x off hoff h1
          rw [hos] at hS'
          simp only [Prod.mk.injEq, true_and] at hS'
          refine ⟨p, tr, hPT, Or.inr ⟨os, ?_, h.symm⟩⟩
          rw [hS']
          exact hins
        · simp at h

lemma insertUseEntryAtOffset_frame (F : RuleList) (t x : UseItem) (off : Nat) (post : RuleList)
    (hoff : off ≤ 1) (h : insertUseEntryAtOffset F t x off = (true, post)) :
    useInsertOutcome F t x post := by
  unfold insertUseEntryAtOffset at h
  split at h
  · simp at h
  · rename_i p tr hPT
    split at h
    · rename_i u hu
      simp only [Prod.mk.injEq, true_and] at h
      have h1 : (insertAtPositionOfUse p.useF t x off).1 = true := by rw [hu]
      obtain ⟨l, l', hul, hres, hins⟩ := insertAtPositionOfUse_shape p.useF t x off hoff h1
      rw [hu] at hres
      simp only [Prod.mk.injEq, true_and] at hres
      refine ⟨p, tr, l, l', hPT, hul, hins, ?_⟩
      rw [← h, hres]
    · simp at h

/-- Claim C10 as amended: whenever one of the four insertion operations
returns true, the mutation is a pure splice: the new element sits at
exactly one position of the located sequence (the root forest, or the
found parent's `rules`/`oneOf`/`use` sequence), and every element of that
sequence as of the moment of the splice is preserved in its order.  The
comparison is against the sequence after the parent lookup, whose in-place
normalization pass may already have replaced raw string entries of a `use`
array by their parsed canonical objects. -/
theorem c10_insertion_frame :
    (∀ F t x post, insertBeforeRule F t x = (true, post) → ruleInsertOutcome F t x post) ∧
    (∀ F t x post, insertAfterRule F t x = (true, post) → ruleInsertOutcome F t x post) ∧
    (∀ F t x post, insertBeforeUseEntry F t x = (true, post) → useInsertOutcome F t x post) ∧
    (∀ F t x post, insertAfterUseEntry F t x = (true, post) → useInsertOutcome F t x post) :=
  ⟨fun F t x post h => insertRuleAtOffset_frame F t x 0 post (by omega) h,
   fun F t x post h => insertRuleAtOffset_frame F t x 1 post (by omega) h,
   fun F t x post h => insertUseEntryAtOffset_frame F t x 0 post (by omega) h,
   fun F t x post h => insertUseEntryAtOffset_frame F t x 1 post (by omega) h⟩

/-- Claim C10 counterexample: a successful `insertBeforeUseEntry` can drop
an element the target sequence held before the call.  On a rule whose
`use` array mixes a raw string entry with the target object entry, the
parent lookup normalizes the array in place before the splice: the call
returns true, the new entry is inserted, but the string element of the
pre-call sequence is no longer present afterwards (it was replaced by its
parsed object form). -/
theorem c10_counterexample :
    (insertBeforeUseEntry
        (.cons (.mk none none none none
          (some (.list [.str "a", .obj ⟨some (.str "t"), none, none⟩])) .nil .nil) .nil)
        (.obj ⟨some (.str "t"), none, none⟩) (.obj ⟨some (.str "x"), none, none⟩)).1 = true ∧
    firstRuleUse
      (insertBeforeUseEntry
        (.cons (.mk none none none none
          (some (.list [.str "a", .obj ⟨some (.str "t"), none, none⟩])) .nil .nil) .nil)
        (.obj ⟨some (.str "t"), none, none⟩) (.obj ⟨some (.str "x"), none, none⟩)).2 =
      some (.list [.obj ⟨some (.str "a"), none, none⟩,
                   .obj ⟨some (.str "x"), none, none⟩,
                   .obj ⟨some (.str "t"), none, none⟩]) ∧
    (UseItem.str "a") ∈ [UseItem.str "a", .obj ⟨some (.str "t"), none, none⟩] ∧
    ¬ ((UseItem.str "a") ∈ [UseItem.obj ⟨some (.str "a"), none, none⟩,
                            .obj ⟨some (.str "x"), none, none⟩,
                            .obj ⟨some (.str "t"), none, none⟩]) := by
  decide

/-- Witness for claim C10: the use-entry conjunct applied at a concrete
successful insertion. -/
theorem c10_insertion_frame_witness :
    insertBeforeUseEntry
      (.cons (.mk none none none none
        (some (.list [.str "a", .obj ⟨some (.str "t"), none, none⟩])) .nil .nil) .nil)
      (.obj ⟨some (.str "t"), none, none⟩) (.obj ⟨some (.str "x"), none, none⟩) =
      (true,
       .cons (.mk none none none none
         (some (.list [.obj ⟨some (.str "a"), none, none⟩,
                       .obj ⟨some (.str "x"), none, none⟩,
                       .obj ⟨some (.str "t"), none, none⟩])) .nil .nil) .nil) ∧
    useInsertOutcome
      (.cons (.mk none none none none
        (some (.list [.str "a", .obj ⟨some (.str "t"), none, none⟩])) .nil .nil) .nil)
      (.obj ⟨some (.str "t"), none, none⟩) (.obj ⟨some (.str "x"), none, none⟩)
      (.cons (.mk none none none none
        (some (.list [.obj ⟨some (.str "a"), none, none⟩,
                      .obj ⟨some (.str "x"), none, none⟩,
                      .obj ⟨some (.str "t"), none, none⟩])) .nil .nil) .nil) :=
  ⟨by decide, c10_insertion_frame.2.2.1 _ _ _ _ (by decide)⟩
